import Mathlib

/-
Verification of `distcache`'s consistent-hashing ring
(`src/distcache/consistent_hashing.py`, class `ConsistentHashing`).

Shallow embedding conventions:
* Python's builtin `hash` is an arbitrary `String → Int` parameter `h`;
  concrete hash functions are supplied where concrete traces are evaluated.
* The `while position in self.occupied` rehash loop is modelled with explicit
  fuel (`resolvePos`); returning `none` models non-termination or exhaustion.
* Python exceptions are modelled with `Except PyErr`: `indexError` for an
  out-of-range list access, `typeError` for the unorderable `None`-vs-`str`
  comparison inside `bisect_right`, `keyError` for `set.remove` on a missing
  element.
* `bisect.bisect_right(ring, (hash(key), None))` is modelled by the very same
  lo/hi binary search the CPython implementation performs, with the probe
  comparison `(h, None) < (p, node)` deciding on the integer components and
  raising `typeError` when they are equal (Python cannot order `None` against
  a string).  The loop runs `hi - lo` times at most, so it is given
  `a.length` fuel; the fuel-out branch is unreachable at that fuel.
* `bisect.insort` on an (always sorted) list is modelled as ordered insertion
  under Python's lexicographic tuple order.
-/

namespace Distcache

/-- Python exceptions that the embedded code can raise. -/
inductive PyErr where
  | indexError
  | typeError
  | keyError
deriving DecidableEq, Repr

/-- The state of a `ConsistentHashing` object: `self.ring` (list of
`(position, server)` pairs) and `self.occupied` (a set of positions,
modelled as a duplicate-free list). -/
structure CH where
  ring : List (Int × String)
  occupied : List Int
deriving DecidableEq, Repr

/-- The replica label `"{}_{}".format(node, i)`. -/
def replicaKey (node : String) (i : Nat) : String :=
  node ++ "_" ++ toString i

/-- Python's string order: lexicographic comparison of code points. -/
def strLt : List Char → List Char → Bool
  | [], [] => false
  | [], _ :: _ => true
  | _ :: _, [] => false
  | a :: as, b :: bs =>
    if a.val < b.val then true
    else if b.val < a.val then false
    else strLt as bs

/-- Ordered insertion of a pair under Python's lexicographic tuple order,
after equal elements: models `bisect.insort(self.ring, (position, node))`
(the ring is sorted at every call site, where binary `insort` coincides
with ordered insertion). -/
def insort (x : Int × String) : List (Int × String) → List (Int × String)
  | [] => [x]
  | e :: rest =>
    if x.1 < e.1 ∨ (x.1 = e.1 ∧ strLt x.2.data e.2.data) then x :: e :: rest
    else e :: insort x rest

/-- The collision-resolution loop of `_generate_ring`:
`while position in self.occupied: key = "{}_{}".format(key, i); position = hash(key)`.
Runs on explicit fuel; `none` models a loop that did not exit within fuel. -/
def resolvePos (h : String → Int) (occ : List Int) (i : Nat) :
    Nat → String → Option Int
  | 0, _ => none
  | fuel + 1, key =>
    if h key ∈ occ then resolvePos h occ i fuel (key ++ "_" ++ toString i)
    else some (h key)

/-- One iteration of the inner loop of `_generate_ring`: place replica `i`
of `node`, record its position in `occupied` and insert it into the ring. -/
def addReplica (h : String → Int) (fuel : Nat) (s : CH) (node : String)
    (i : Nat) : Option CH :=
  match resolvePos h s.occupied i fuel (replicaKey node i) with
  | none => none
  | some p => some ⟨insort (p, node) s.ring, p :: s.occupied⟩

/-- The inner loop `for i in range(weight)` of `_generate_ring`, starting at
replica index `i` with `k` iterations left. -/
def addReplicas (h : String → Int) (fuel : Nat) (node : String) :
    Nat → Nat → CH → Option CH
  | _, 0, s => some s
  | i, k + 1, s =>
    match addReplica h fuel s node i with
    | none => none
    | some s' => addReplicas h fuel node (i + 1) k s'

/-- `_generate_ring(nodes, weights)`: outer loop over `enumerate(nodes)`.
Accessing `weights[id]` past the end of `weights` is an `IndexError`,
modelled as `none`. -/
def generate_ring (h : String → Int) (fuel : Nat) :
    List String → List Nat → CH → Option CH
  | [], _, s => some s
  | _ :: _, [], _ => none
  | n :: ns, w :: ws, s =>
    match addReplicas h fuel n 0 w s with
    | none => none
    | some s' => generate_ring h fuel ns ws s'

/-- `__init__(nodes, weights)`: when `weights` is omitted (`none`) or the
empty list, every node gets the default weight 5; when `nodes` is empty the
object starts with an empty ring and empty occupied set. -/
def init (h : String → Int) (fuel : Nat) (nodes : List String)
    (weights : Option (List Nat)) : Option CH :=
  let ws := match weights with
    | none => List.replicate nodes.length 5
    | some w => if w.isEmpty then List.replicate nodes.length 5 else w
  if nodes.isEmpty then some ⟨[], []⟩
  else generate_ring h fuel nodes ws ⟨[], []⟩

/-- `add_node(node, weight)`. -/
def add_node (h : String → Int) (fuel : Nat) (s : CH) (node : String)
    (weight : Nat) : Option CH :=
  generate_ring h fuel [node] [weight] s

/-- The loop body of `remove_node`: iterate over the ring; an entry whose
server differs from `node` is appended to `temp` AND its position is removed
from `occupied` (`set.remove` raises `KeyError` when the position is
absent); entries of `node` itself are dropped from the ring only. -/
def removeLoop (X : String) :
    List (Int × String) → List (Int × String) → List Int →
    Except PyErr (List (Int × String) × List Int)
  | [], temp, occ => .ok (temp, occ)
  | e :: rest, temp, occ =>
    if e.2 ≠ X then
      if e.1 ∈ occ then removeLoop X rest (temp ++ [e]) (occ.erase e.1)
      else .error .keyError
    else removeLoop X rest temp occ

/-- `remove_node(node)`. -/
def remove_node (s : CH) (X : String) : Except PyErr CH :=
  match removeLoop X s.ring [] s.occupied with
  | .ok (temp, occ) => .ok ⟨temp, occ⟩
  | .error e => .error e

/-- The loop of `bisect.bisect_right(a, (hk, None))` on `lo`/`hi` bounds:
`mid = (lo+hi)//2`; the probe comparison `(hk, None) < a[mid]` is decided by
the integer components and raises `TypeError` on equality.  Called with fuel
`hi - lo`, which the recursion never exhausts. -/
def brLoop (hk : Int) (a : List (Int × String)) :
    Nat → Nat → Nat → Except PyErr Nat
  | 0, lo, _ => .ok lo
  | fuel + 1, lo, hi =>
    if lo < hi then
      match a[(lo + hi) / 2]? with
      | none => .error .indexError
      | some e =>
        if hk < e.1 then brLoop hk a fuel lo ((lo + hi) / 2)
        else if e.1 < hk then brLoop hk a fuel ((lo + hi) / 2 + 1) hi
        else .error .typeError
    else .ok lo

/-- `bisect_right(self.ring, (hash(key), None))`. -/
def bisect_right (hk : Int) (a : List (Int × String)) : Except PyErr Nat :=
  brLoop hk a a.length 0 a.length

/-- `get_node(key)`: binary-search for the successor, wrap `len(ring)` to
`0`, and index the ring (`IndexError` on an empty ring). -/
def get_node (h : String → Int) (s : CH) (key : String) :
    Except PyErr String :=
  match bisect_right (h key) s.ring with
  | .error e => .error e
  | .ok i =>
    match s.ring[if i = s.ring.length then 0 else i]? with
    | some e => .ok e.2
    | none => .error .indexError

/-- The positions stored in a ring. -/
def positions (l : List (Int × String)) : List Int :=
  l.map Prod.fst

/-- The spec's sortedness/uniqueness invariant: ring positions are strictly
increasing (hence all distinct). -/
def ringSorted (l : List (Int × String)) : Prop :=
  l.Pairwise (fun a b => a.1 < b.1)

instance (l : List (Int × String)) : Decidable (ringSorted l) := by
  unfold ringSorted; infer_instance

/-- `occupied` holds exactly the positions present in the ring. -/
def occMatches (s : CH) : Prop :=
  (∀ p ∈ s.occupied, ∃ e ∈ s.ring, e.1 = p) ∧ ∀ e ∈ s.ring, e.1 ∈ s.occupied

instance (s : CH) : Decidable (occMatches s) := by
  unfold occMatches; infer_instance

/-- Internal consistency of a ring state: sorted and collision-free ring,
duplicate-free occupied set matching the ring's positions. -/
def Inv (s : CH) : Prop :=
  ringSorted s.ring ∧ s.occupied.Nodup ∧ occMatches s

instance (s : CH) : Decidable (Inv s) := by
  unfold Inv; infer_instance

/-- Every ring position is the hash of some key (true of generated rings;
used to exhibit lookup keys that collide with a stored position). -/
def HashedPos (h : String → Int) (s : CH) : Prop :=
  ∀ e ∈ s.ring, ∃ k, h k = e.1

/-- The successor rule in the words of the spec (§4.1 GetNode): the first
ring entry whose position is strictly greater than the hash, wrapping
around to the first entry when none exists. -/
def specSuccessor (hk : Int) (l : List (Int × String)) : String :=
  match l.find? (fun e => hk < e.1) with
  | some e => e.2
  | none => l.headI.2

/-- Number of ring entries owned by node `n`. -/
def countNode (l : List (Int × String)) (n : String) : Nat :=
  l.countP (fun e => e.2 == n)

/-- A concrete stand-in for Python's builtin string hash, used to evaluate
concrete traces: the replica label `A_0` hashes to 1, `B_0` to 2, every
other string to 0. -/
def hashAB : String → Int :=
  fun s => if s = "A_0" then 1 else if s = "B_0" then 2 else 0

/-- A second concrete hash: `A_0` hashes to 1, everything else to 0. -/
def hashA : String → Int :=
  fun s => if s = "A_0" then 1 else 0

/-- The two-node state built by `ConsistentHashing(["A","B"], [1,1])`
under `hashAB`. -/
def sAB : CH := ⟨[(1, "A"), (2, "B")], [2, 1]⟩

/-- The one-node state built by `ConsistentHashing(["A"], [1])`
under `hashA`. -/
def sA : CH := ⟨[(1, "A")], [1]⟩

/-- C1: constructing a ring with zero nodes and then looking a key up does
not signal a distinct empty-ring condition: `get_node` propagates the
out-of-range access `self.ring[0]` as an `IndexError`, exactly the crash the
spec says must not happen. -/
theorem c1_empty_ring_lookup_crashes :
    init hashAB 9 [] (some []) = some ⟨[], []⟩ ∧
    get_node hashAB ⟨[], []⟩ "x" = .error .indexError :=
  ⟨rfl, rfl⟩

/-- C2: removing node `B` from the two-node ring `{A ↦ 1, B ↦ 2}` deletes
`B`'s ring entry, but frees the KEPT entry's position 1 from `occupied`
while retaining the removed entry's position 2: `occupied` ends as `[2]`,
not `[1]`, so the resulting state no longer matches its own ring. -/
theorem c2_remove_node_frees_wrong_positions :
    init hashAB 9 ["A", "B"] (some [1, 1]) = some sAB ∧
    remove_node sAB "B" = .ok ⟨[(1, "A")], [2]⟩ ∧
    ¬ occMatches ⟨[(1, "A")], [2]⟩ :=
  ⟨rfl, rfl, by decide⟩

/-- C3: the sortedness/uniqueness invariant is not preserved by sequences of
add and remove: starting from `ConsistentHashing(["A"], [1])`, removing the
absent node `B` empties `occupied` (the inverted bug of `remove_node`), and
re-adding `A` then reuses the very same hash position 1, producing the ring
`[(1,"A"), (1,"A")]` whose positions are not strictly increasing. -/
theorem c3_sortedness_invariant_broken :
    init hashA 9 ["A"] (some [1]) = some sA ∧
    remove_node sA "B" = .ok ⟨[(1, "A")], []⟩ ∧
    add_node hashA 9 ⟨[(1, "A")], []⟩ "A" 1 =
      some ⟨[(1, "A"), (1, "A")], [1]⟩ ∧
    ¬ ringSorted [(1, "A"), (1, "A")] :=
  ⟨rfl, rfl, rfl, by decide⟩

/-- C5: a mutation can fully succeed yet leave the state internally
inconsistent: on the consistent two-node state, `remove_node "C"` (an
absent node) returns successfully but drains `occupied` to `[]`, so the
invariant `Inv` (occupied matching the ring's positions) no longer holds —
a partial-failure state the spec rules out. -/
theorem c5_remove_node_leaves_inconsistent_state :
    init hashAB 9 ["A", "B"] (some [1, 1]) = some sAB ∧
    Inv sAB ∧
    remove_node sAB "C" = .ok ⟨[(1, "A"), (2, "B")], []⟩ ∧
    ¬ Inv ⟨[(1, "A"), (2, "B")], []⟩ :=
  ⟨rfl, by decide, rfl, by decide⟩

/-- C6: removing an absent node is not a no-op: on the one-node state with
ring `[(1,"A")]` and occupied `[1]`, `remove_node "B"` keeps the ring but
empties `occupied`, so the state changes. -/
theorem c6_remove_absent_node_not_noop :
    init hashA 9 ["A"] (some [1]) = some sA ∧
    remove_node sA "B" = .ok ⟨[(1, "A")], []⟩ ∧
    (⟨[(1, "A")], []⟩ : CH) ≠ sA :=
  ⟨rfl, rfl, by decide⟩

/-- C4 counterexample: on the two-node ring `{A ↦ 1, B ↦ 2}`, the key
`"A_0"` hashes exactly to the occupied position 1, and `get_node` raises a
`TypeError` inside `bisect_right` instead of returning the successor node
`"B"` that the claim prescribes. -/
theorem c4_lookup_raises_on_equal_hash :
    init hashAB 9 ["A", "B"] (some [1, 1]) = some sAB ∧
    get_node hashAB sAB "A_0" = .error .typeError ∧
    get_node hashAB sAB "A_0" ≠ .ok (specSuccessor (hashAB "A_0") sAB.ring) :=
  ⟨rfl, rfl, fun hcon => by rw [show get_node hashAB sAB "A_0" = .error .typeError from rfl] at hcon; exact Except.noConfusion hcon⟩

theorem positions_nil : positions [] = [] := rfl

theorem positions_cons (e : Int × String) (l : List (Int × String)) :
    positions (e :: l) = e.1 :: positions l := rfl

theorem mem_positions {p : Int} {l : List (Int × String)} :
    p ∈ positions l ↔ ∃ e ∈ l, e.1 = p := by
  simp [positions, List.mem_map]

theorem mem_insort {x a : Int × String} {l : List (Int × String)} :
    a ∈ insort x l ↔ a = x ∨ a ∈ l := by
  induction l with
  | nil => simp [insort]
  | cons e rest ih =>
    rw [insort]
    by_cases hc : x.1 < e.1 ∨ (x.1 = e.1 ∧ strLt x.2.data e.2.data)
    · rw [if_pos hc]
      simp only [List.mem_cons]
    · rw [if_neg hc]
      simp only [List.mem_cons, ih]
      tauto

theorem insort_sorted {x : Int × String} {l : List (Int × String)}
    (hs : ringSorted l) (hx : x.1 ∉ positions l) :
    ringSorted (insort x l) := by
  induction l with
  | nil => rw [insort]; simp [ringSorted]
  | cons e rest ih =>
    simp only [ringSorted, List.pairwise_cons] at hs
    obtain ⟨he, hrest⟩ := hs
    have hxe : x.1 ≠ e.1 := by
      intro hcon
      apply hx
      rw [positions_cons, hcon]
      exact List.mem_cons_self _ _
    have hxrest : x.1 ∉ positions rest := by
      intro hm; exact hx (by rw [positions_cons]; exact List.mem_cons_of_mem _ hm)
    rw [insort]
    by_cases hc : x.1 < e.1 ∨ (x.1 = e.1 ∧ strLt x.2.data e.2.data)
    · rw [if_pos hc]
      have hxe' : x.1 < e.1 := hc.resolve_right (fun h12 => hxe h12.1)
      simp only [ringSorted, List.pairwise_cons]
      refine ⟨?_, ?_, hrest⟩
      · intro b hb
        rcases List.mem_cons.mp hb with rfl | hbr
        · exact hxe'
        · exact lt_trans hxe' (he b hbr)
      · exact he
    · rw [if_neg hc]
      have hex : e.1 < x.1 := by
        rcases lt_trichotomy x.1 e.1 with hlt | heq | hgt
        · exact absurd (Or.inl hlt) hc
        · exact absurd heq hxe
        · exact hgt
      simp only [ringSorted, List.pairwise_cons]
      refine ⟨?_, ih hrest hxrest⟩
      intro b hb
      rcases mem_insort.mp hb with rfl | hbr
      · exact hex
      · exact he b hbr

theorem resolvePos_spec {h : String → Int} {occ : List Int} {i : Nat} :
    ∀ fuel key p, resolvePos h occ i fuel key = some p →
      p ∉ occ ∧ ∃ k, h k = p := by
  intro fuel
  induction fuel with
  | zero => intro key p hp; simp [resolvePos] at hp
  | succ f ih =>
    intro key p hp
    rw [resolvePos] at hp
    by_cases hm : h key ∈ occ
    · rw [if_pos hm] at hp
      exact ih _ _ hp
    · rw [if_neg hm] at hp
      obtain rfl : h key = p := Option.some.inj hp
      exact ⟨hm, key, rfl⟩

theorem addReplica_inv {h : String → Int} {fuel : Nat} {s : CH}
    {node : String} {i : Nat} {s' : CH}
    (hi : Inv s) (hh : HashedPos h s)
    (hadd : addReplica h fuel s node i = some s') :
    Inv s' ∧ HashedPos h s' := by
  obtain ⟨hsort, hnodup, hocc1, hocc2⟩ := hi
  rw [addReplica] at hadd
  cases hr : resolvePos h s.occupied i fuel (replicaKey node i) with
  | none => rw [hr] at hadd; exact absurd hadd (by simp)
  | some p =>
    rw [hr] at hadd
    obtain rfl : (⟨insort (p, node) s.ring, p :: s.occupied⟩ : CH) = s' :=
      Option.some.inj hadd
    obtain ⟨hpocc, k, hk⟩ := resolvePos_spec fuel _ p hr
    have hppos : p ∉ positions s.ring := by
      intro hm
      obtain ⟨e, hel, hep⟩ := mem_positions.mp hm
      exact hpocc (hep ▸ hocc2 e hel)
    refine ⟨⟨insort_sorted hsort hppos, ?_, ?_, ?_⟩, ?_⟩
    · exact List.nodup_cons.mpr ⟨hpocc, hnodup⟩
    · intro q hq
      rcases List.mem_cons.mp hq with rfl | hqold
      · exact ⟨(q, node), mem_insort.mpr (Or.inl rfl), rfl⟩
      · obtain ⟨e, hel, hep⟩ := hocc1 q hqold
        exact ⟨e, mem_insort.mpr (Or.inr hel), hep⟩
    · intro e hel
      rcases mem_insort.mp hel with rfl | hold
      · exact List.mem_cons_self _ _
      · exact List.mem_cons_of_mem _ (hocc2 e hold)
    · intro e hel
      rcases mem_insort.mp hel with rfl | hold
      · exact ⟨k, hk⟩
      · exact hh e hold

theorem addReplicas_inv {h : String → Int} {fuel : Nat} {node : String} :
    ∀ k i (s s' : CH), Inv s → HashedPos h s →
      addReplicas h fuel node i k s = some s' →
      Inv s' ∧ HashedPos h s' := by
  intro k
  induction k with
  | zero =>
    intro i s s' hi hh hadd
    obtain rfl : s = s' := Option.some.inj hadd
    exact ⟨hi, hh⟩
  | succ m ih =>
    intro i s s' hi hh hadd
    rw [addReplicas] at hadd
    cases hr : addReplica h fuel s node i with
    | none => rw [hr] at hadd; exact absurd hadd (by simp)
    | some s1 =>
      rw [hr] at hadd
      obtain ⟨hi1, hh1⟩ := addReplica_inv hi hh hr
      exact ih (i + 1) s1 s' hi1 hh1 hadd

theorem generate_ring_inv {h : String → Int} {fuel : Nat} :
    ∀ (nodes : List String) (ws : List Nat) (s s' : CH),
      Inv s → HashedPos h s →
      generate_ring h fuel nodes ws s = some s' →
      Inv s' ∧ HashedPos h s' := by
  intro nodes
  induction nodes with
  | nil =>
    intro ws s s' hi hh hgen
    obtain rfl : s = s' := Option.some.inj hgen
    exact ⟨hi, hh⟩
  | cons n ns ih =>
    intro ws s s' hi hh hgen
    cases ws with
    | nil => exact absurd hgen (by simp [generate_ring])
    | cons w ws' =>
      rw [generate_ring] at hgen
      cases hr : addReplicas h fuel n 0 w s with
      | none => rw [hr] at hgen; exact absurd hgen (by simp)
      | some s1 =>
        rw [hr] at hgen
        obtain ⟨hi1, hh1⟩ := addReplicas_inv w 0 s s1 hi hh hr
        exact ih ws' s1 s' hi1 hh1 hgen

theorem emptyCH_inv (h : String → Int) :
    Inv ⟨[], []⟩ ∧ HashedPos h ⟨[], []⟩ := by
  refine ⟨⟨?_, ?_, ?_, ?_⟩, ?_⟩ <;> simp [ringSorted, occMatches, HashedPos]

theorem init_inv {h : String → Int} {fuel : Nat} {nodes : List String}
    {weights : Option (List Nat)} {s : CH}
    (hinit : init h fuel nodes weights = some s) :
    Inv s ∧ HashedPos h s := by
  simp only [init.eq_def] at hinit
  by_cases hn : nodes.isEmpty
  · rw [if_pos hn] at hinit
    obtain rfl : (⟨[], []⟩ : CH) = s := Option.some.inj hinit
    exact emptyCH_inv h
  · rw [if_neg hn] at hinit
    exact generate_ring_inv nodes _ ⟨[], []⟩ s (emptyCH_inv h).1 (emptyCH_inv h).2
      hinit

theorem sorted_get_lt {a : List (Int × String)} (hs : ringSorted a)
    {i j : Nat} (hi : i < a.length) (hj : j < a.length) (hij : i < j) :
    (a.get ⟨i, hi⟩).1 < (a.get ⟨j, hj⟩).1 :=
  List.pairwise_iff_get.mp hs ⟨i, hi⟩ ⟨j, hj⟩ hij

theorem brLoop_typeError {hk : Int} {a : List (Int × String)}
    (hs : ringSorted a) {j : Nat} (hj : j < a.length)
    (hjp : (a.get ⟨j, hj⟩).1 = hk) :
    ∀ fuel lo hi, hi ≤ a.length → hi - lo ≤ fuel → lo ≤ j → j < hi →
      brLoop hk a fuel lo hi = .error .typeError := by
  intro fuel
  induction fuel with
  | zero => intro lo hi _ hfuel hlo hjhi; omega
  | succ f ih =>
    intro lo hi hhi hfuel hlo hjhi
    have hlt : lo < hi := lt_of_le_of_lt hlo hjhi
    have hmlo : lo ≤ (lo + hi) / 2 := by omega
    have hmhi : (lo + hi) / 2 < hi := by omega
    have hmlen : (lo + hi) / 2 < a.length := lt_of_lt_of_le hmhi hhi
    rw [brLoop, if_pos hlt]
    split
    · next heq =>
      rw [List.getElem?_eq_getElem hmlen] at heq
      exact Option.noConfusion heq
    · next e heq =>
      rw [List.getElem?_eq_getElem hmlen] at heq
      obtain rfl : a[(lo + hi) / 2] = e := Option.some.inj heq
      rcases lt_trichotomy ((lo + hi) / 2) j with hmj | hmj | hmj
      · have hlt2 : (a.get ⟨(lo + hi) / 2, hmlen⟩).1 < hk :=
          hjp ▸ sorted_get_lt hs hmlen hj hmj
        rw [List.get_eq_getElem] at hlt2
        rw [if_neg (not_lt_of_gt hlt2), if_pos hlt2]
        exact ih ((lo + hi) / 2 + 1) hi hhi (by omega) (by omega) hjhi
      · have hpe : (a[(lo + hi) / 2]).1 = hk := by
          subst hmj
          exact hjp
        rw [if_neg (by rw [hpe]; exact lt_irrefl hk),
          if_neg (by rw [hpe]; exact lt_irrefl hk)]
      · have hlt2 : hk < (a[(lo + hi) / 2]).1 := by
          have := hjp ▸ sorted_get_lt hs hj hmlen hmj
          exact this
        rw [if_pos hlt2]
        exact ih lo ((lo + hi) / 2) (le_trans (le_of_lt hmhi) hhi) (by omega)
          hlo hmj

theorem brLoop_ok {hk : Int} {a : List (Int × String)}
    (hs : ringSorted a)
    (hne : ∀ i (hil : i < a.length), (a.get ⟨i, hil⟩).1 ≠ hk) :
    ∀ fuel lo hi, hi ≤ a.length → hi - lo ≤ fuel → lo ≤ hi →
      (∀ i (hil : i < a.length), i < lo → (a.get ⟨i, hil⟩).1 < hk) →
      (∀ i (hil : i < a.length), hi ≤ i → hk < (a.get ⟨i, hil⟩).1) →
      ∃ j, brLoop hk a fuel lo hi = .ok j ∧ j ≤ a.length ∧
        (∀ i (hil : i < a.length), i < j → (a.get ⟨i, hil⟩).1 < hk) ∧
        (∀ i (hil : i < a.length), j ≤ i → hk < (a.get ⟨i, hil⟩).1) := by
  intro fuel
  induction fuel with
  | zero =>
    intro lo hi hhi hfuel hlohi hlow hhigh
    have heq : lo = hi := by omega
    subst heq
    exact ⟨lo, rfl, hhi, hlow, hhigh⟩
  | succ f ih =>
    intro lo hi hhi hfuel hlohi hlow hhigh
    by_cases hlt : lo < hi
    · have hmlo : lo ≤ (lo + hi) / 2 := by omega
      have hmhi : (lo + hi) / 2 < hi := by omega
      have hmlen : (lo + hi) / 2 < a.length := lt_of_lt_of_le hmhi hhi
      rw [brLoop, if_pos hlt]
      split
      · next heq =>
        rw [List.getElem?_eq_getElem hmlen] at heq
        exact Option.noConfusion heq
      · next e heq =>
        rw [List.getElem?_eq_getElem hmlen] at heq
        obtain rfl : a[(lo + hi) / 2] = e := Option.some.inj heq
        rcases lt_or_gt_of_ne (hne _ hmlen) with hltk | hgtk
        · have hltk2 : a[(lo + hi) / 2].1 < hk := hltk
          rw [if_neg (not_lt_of_gt hltk2), if_pos hltk2]
          refine ih ((lo + hi) / 2 + 1) hi hhi (by omega) (by omega) ?_ hhigh
          intro i hil hi2
          rcases lt_trichotomy i ((lo + hi) / 2) with h3 | h3 | h3
          · exact lt_trans (sorted_get_lt hs hil hmlen h3) hltk
          · subst h3; exact hltk
          · omega
        · have hgtk2 : hk < a[(lo + hi) / 2].1 := hgtk
          rw [if_pos hgtk2]
          refine ih lo ((lo + hi) / 2) (le_of_lt hmlen) (by omega) hmlo hlow
            ?_
          intro i hil hi2
          rcases lt_or_eq_of_le hi2 with h3 | h3
          · exact lt_trans hgtk (sorted_get_lt hs hmlen hil h3)
          · subst h3; exact hgtk
    · have heq : lo = hi := by omega
      subst heq
      rw [brLoop, if_neg hlt]
      exact ⟨lo, rfl, hhi, hlow, hhigh⟩

theorem bisect_right_ok {hk : Int} {a : List (Int × String)}
    (hs : ringSorted a) (hnot : hk ∉ positions a) :
    ∃ j, bisect_right hk a = .ok j ∧ j ≤ a.length ∧
      (∀ i (hil : i < a.length), i < j → (a.get ⟨i, hil⟩).1 < hk) ∧
      (∀ i (hil : i < a.length), j ≤ i → hk < (a.get ⟨i, hil⟩).1) := by
  have hne : ∀ i (hil : i < a.length), (a.get ⟨i, hil⟩).1 ≠ hk := by
    intro i hil hcon
    exact hnot (mem_positions.mpr ⟨a.get ⟨i, hil⟩, List.get_mem a i hil, hcon⟩)
  exact brLoop_ok hs hne a.length 0 a.length le_rfl (by omega) (by omega)
    (fun i hil hcon => absurd hcon (by omega))
    (fun i hil hcon => absurd hil (by omega))

theorem find?_eq_of_bounds {p : (Int × String) → Bool} :
    ∀ (l : List (Int × String)) (j : Nat) (hj : j < l.length),
      (∀ i (hil : i < l.length), i < j → p (l.get ⟨i, hil⟩) = false) →
      p (l.get ⟨j, hj⟩) = true →
      l.find? p = some (l.get ⟨j, hj⟩) := by
  intro l
  induction l with
  | nil => intro j hj; exact absurd hj (by simp)
  | cons e rest ih =>
    intro j hj hbelow hat
    cases j with
    | zero =>
      have hpe : p e = true := hat
      rw [List.find?_cons_of_pos _ (by simp [hpe])]
      rfl
    | succ m =>
      have hpe : p e = false := hbelow 0 (by omega) (by omega)
      rw [List.find?_cons_of_neg _ (by simp [hpe])]
      exact ih m (by simpa using hj)
        (fun i hil him => hbelow (i + 1) (by omega) (by omega)) hat

theorem headI_eq_get {l : List (Int × String)} (h0 : 0 < l.length) :
    l.headI = l.get ⟨0, h0⟩ := by
  cases l with
  | nil => exact absurd h0 (by simp)
  | cons e rest => rfl

theorem get_node_ok {h : String → Int} {s : CH} {key : String}
    (hs : ringSorted s.ring) (hne : s.ring ≠ [])
    (hnot : h key ∉ positions s.ring) :
    get_node h s key = .ok (specSuccessor (h key) s.ring) := by
  obtain ⟨j, hbr, hjle, hlow, hhigh⟩ := bisect_right_ok hs hnot
  simp only [get_node.eq_def, hbr]
  by_cases hj : j = s.ring.length
  · rw [if_pos hj]
    have h0 : 0 < s.ring.length := List.length_pos.mpr hne
    rw [List.getElem?_eq_getElem h0]
    show Except.ok (s.ring[0]).2 = .ok (specSuccessor (h key) s.ring)
    have hfind : s.ring.find? (fun e => h key < e.1) = none := by
      rw [List.find?_eq_none]
      intro x hx
      obtain ⟨⟨i, hil⟩, hgi⟩ := List.get_of_mem hx
      subst hj
      simpa using le_of_lt (hgi ▸ hlow i hil hil)
    rw [specSuccessor, hfind, headI_eq_get h0]
    rfl
  · have hjlt : j < s.ring.length := lt_of_le_of_ne hjle hj
    rw [if_neg hj, List.getElem?_eq_getElem hjlt]
    show Except.ok (s.ring[j]).2 = .ok (specSuccessor (h key) s.ring)
    have hfind : s.ring.find? (fun e => h key < e.1) =
        some (s.ring.get ⟨j, hjlt⟩) := by
      refine find?_eq_of_bounds s.ring j hjlt ?_ ?_
      · intro i hil hij
        exact decide_eq_false (not_lt_of_gt (hlow i hil hij))
      · exact decide_eq_true (hhigh j hjlt le_rfl)
    rw [specSuccessor, hfind]
    rfl

theorem get_node_typeError {h : String → Int} {s : CH} {key : String}
    (hs : ringSorted s.ring) (hmem : h key ∈ positions s.ring) :
    get_node h s key = .error .typeError := by
  obtain ⟨e, hel, hep⟩ := mem_positions.mp hmem
  obtain ⟨⟨j, hj⟩, hget⟩ := List.get_of_mem hel
  have hbr : bisect_right (h key) s.ring = .error .typeError :=
    brLoop_typeError hs hj (by rw [hget, hep]) s.ring.length 0 s.ring.length
      le_rfl (by omega) (by omega) hj
  simp only [get_node.eq_def, hbr]

/-- C4 (amended): on a non-empty ring in a sorted state, for every key whose
hash differs from every stored position, `get_node` returns the node of the
first ring entry whose position is strictly greater than the hash, wrapping
around to the entry at the smallest position when no such entry exists.
(For a key whose hash equals a stored position, `get_node` instead raises a
`TypeError`; see the counterexample and C10.) -/
theorem c4_successor_rule (h : String → Int) (s : CH) (key : String)
    (hs : ringSorted s.ring) (hne : s.ring ≠ [])
    (hnot : h key ∉ positions s.ring) :
    get_node h s key = .ok (specSuccessor (h key) s.ring) :=
  get_node_ok hs hne hnot

/-- Witness for C4: on the ring `{A ↦ 1, B ↦ 2}` the key `"Z"` (hash 0) is
routed to `"A"`, the first entry past position 0. -/
theorem c4_successor_rule_witness :
    get_node hashAB sAB "Z" = .ok "A" :=
  c4_successor_rule hashAB sAB "Z" (by decide) (by decide) (by decide)

/-- C9: `get_node` is a pure function of the ring state and the key — its
embedded type `CH → String → Except PyErr String` returns no updated state,
reflecting that the Python method only reads `self.ring` — so two lookups of
the same key on the same fixed state yield the same result. -/
theorem c9_get_node_deterministic (h : String → Int) (s : CH) (key : String)
    (r1 r2 : Except PyErr String) (hc1 : get_node h s key = r1)
    (hc2 : get_node h s key = r2) : r1 = r2 :=
  hc1.symm.trans hc2

/-- Witness for C9 at a concrete state and key. -/
theorem c9_get_node_deterministic_witness :
    (Except.ok "A" : Except PyErr String) = Except.ok "A" :=
  c9_get_node_deterministic hashAB sAB "Z" (.ok "A") (.ok "A") rfl rfl

/-- C10: every ring built by the constructor that is non-empty admits a key
on which `get_node` raises a `TypeError`: each stored position is the hash
of some string (its replica label), and when `hash(key)` equals a stored
position the binary search must eventually probe that entry and compare
`None` against the stored node string. -/
theorem c10_lookup_type_error_exists (h : String → Int) (fuel : Nat)
    (nodes : List String) (weights : Option (List Nat)) (s : CH)
    (hinit : init h fuel nodes weights = some s) (hne : s.ring ≠ []) :
    ∃ key, get_node h s key = .error .typeError := by
  obtain ⟨⟨hsort, _, _⟩, hhash⟩ := init_inv hinit
  obtain ⟨e, rest, hr⟩ := List.exists_cons_of_ne_nil hne
  obtain ⟨k, hk⟩ := hhash e (by rw [hr]; exact List.mem_cons_self e rest)
  exact ⟨k, get_node_typeError hsort
    (mem_positions.mpr ⟨e, by rw [hr]; exact List.mem_cons_self e rest,
      hk.symm⟩)⟩

/-- Witness for C10 on the concrete two-node ring. -/
theorem c10_lookup_type_error_exists_witness :
    ∃ key, get_node hashAB sAB key = .error .typeError :=
  c10_lookup_type_error_exists hashAB 9 ["A", "B"] (some [1, 1]) sAB rfl
    (by decide)

theorem ringSorted_filter (q : (Int × String) → Bool)
    {l : List (Int × String)} (hs : ringSorted l) :
    ringSorted (l.filter q) :=
  List.Pairwise.sublist (List.filter_sublist l) hs

theorem positions_nodup {l : List (Int × String)} (hs : ringSorted l) :
    (positions l).Nodup := by
  show (l.map Prod.fst).Pairwise (· ≠ ·)
  rw [List.pairwise_map]
  exact hs.imp (fun hab => ne_of_lt hab)

theorem removeLoop_ok (X : String) :
    ∀ (l temp : List (Int × String)) (occ : List Int),
      (positions l).Nodup → (∀ e ∈ l, e.2 ≠ X → e.1 ∈ occ) →
      ∃ occ2, removeLoop X l temp occ =
        .ok (temp ++ l.filter (fun e => e.2 ≠ X), occ2) := by
  intro l
  induction l with
  | nil =>
    intro temp occ hnd hmem
    exact ⟨occ, by simp [removeLoop]⟩
  | cons e rest ih =>
    intro temp occ hnd hmem
    rw [positions_cons, List.nodup_cons] at hnd
    obtain ⟨hnp, hnd2⟩ := hnd
    by_cases hx : e.2 ≠ X
    · rw [removeLoop, if_pos hx,
        if_pos (hmem e (List.mem_cons_self e rest) hx)]
      have hmem2 : ∀ e2 ∈ rest, e2.2 ≠ X → e2.1 ∈ occ.erase e.1 := by
        intro e2 he2 hx2
        have hne12 : e2.1 ≠ e.1 := by
          intro hcon
          exact hnp (hcon ▸ mem_positions.mpr ⟨e2, he2, rfl⟩)
        exact (List.mem_erase_of_ne hne12).mpr
          (hmem e2 (List.mem_cons_of_mem e he2) hx2)
      obtain ⟨occ2, hrec⟩ := ih (temp ++ [e]) (occ.erase e.1) hnd2 hmem2
      refine ⟨occ2, ?_⟩
      have hfc : List.filter (fun e => decide (e.2 ≠ X)) (e :: rest) =
          e :: List.filter (fun e => decide (e.2 ≠ X)) rest :=
        List.filter_cons_of_pos (decide_eq_true hx)
      rw [hrec, hfc, List.append_assoc]
      rfl
    · rw [removeLoop, if_neg hx]
      obtain ⟨occ2, hrec⟩ := ih temp occ hnd2
        (fun e2 he2 hx2 => hmem e2 (List.mem_cons_of_mem e he2) hx2)
      refine ⟨occ2, ?_⟩
      rw [hrec, List.filter_cons_of_neg (by simpa using hx)]

theorem remove_node_ok {s : CH} {X : String} (hi : Inv s) :
    ∃ occ2, remove_node s X = .ok ⟨s.ring.filter (fun e => e.2 ≠ X), occ2⟩ := by
  obtain ⟨hsort, hnodup, hocc1, hocc2⟩ := hi
  obtain ⟨occ2, hrl⟩ := removeLoop_ok X s.ring [] s.occupied
    (positions_nodup hsort) (fun e hel _ => hocc2 e hel)
  refine ⟨occ2, ?_⟩
  simp only [remove_node.eq_def, hrl, List.nil_append]

theorem find?_filter_of_pos {p q : (Int × String) → Bool}
    {l : List (Int × String)} {e : Int × String}
    (hf : l.find? p = some e) (hq : q e = true) :
    (l.filter q).find? p = some e := by
  induction l with
  | nil => simp [List.find?] at hf
  | cons a t ih =>
    by_cases hpa : p a = true
    · rw [List.find?_cons_of_pos _ hpa] at hf
      obtain rfl : a = e := Option.some.inj hf
      rw [List.filter_cons_of_pos hq, List.find?_cons_of_pos _ hpa]
    · rw [List.find?_cons_of_neg _ hpa] at hf
      by_cases hqa : q a = true
      · rw [List.filter_cons_of_pos hqa, List.find?_cons_of_neg _ hpa]
        exact ih hf
      · rw [List.filter_cons_of_neg hqa]
        exact ih hf

theorem find?_filter_of_none {p q : (Int × String) → Bool}
    {l : List (Int × String)} (hf : l.find? p = none) :
    (l.filter q).find? p = none := by
  rw [List.find?_eq_none] at hf ⊢
  intro x hx
  exact hf x (List.mem_of_mem_filter hx)

/-- C7: on an internally consistent ring, if `get_node` routed `key` to a
node `n` other than `X`, then after `remove_node X` (which succeeds) the
same key is still routed to `n`: removing `X` only changes the result for
keys that previously mapped to one of `X`'s replica positions. -/
theorem c7_bounded_remap (h : String → Int) (X key n : String) (s : CH)
    (hi : Inv s) (hget : get_node h s key = .ok n) (hnX : n ≠ X) :
    ∃ s2, remove_node s X = .ok s2 ∧ get_node h s2 key = .ok n := by
  obtain ⟨ring, occ⟩ := s
  have hsort : ringSorted ring := hi.1
  have hnot : h key ∉ positions ring := by
    intro hmem
    rw [get_node_typeError hsort hmem] at hget
    exact Except.noConfusion hget
  have hne : ring ≠ [] := by
    intro hnil
    subst hnil
    have hcrash : (Except.error PyErr.indexError : Except PyErr String) =
        .ok n := hget
    exact Except.noConfusion hcrash
  rw [get_node_ok hsort hne hnot] at hget
  obtain rfl : specSuccessor (h key) ring = n := Except.ok.inj hget
  obtain ⟨occ2, hrm⟩ := remove_node_ok hi
  refine ⟨⟨ring.filter (fun e => e.2 ≠ X), occ2⟩, hrm, ?_⟩
  have hsort2 : ringSorted (ring.filter (fun e => decide (e.2 ≠ X))) :=
    ringSorted_filter _ hsort
  have hnot2 : h key ∉ positions (ring.filter (fun e => decide (e.2 ≠ X))) := by
    intro hm
    obtain ⟨e, hef, hep⟩ := mem_positions.mp hm
    exact hnot (mem_positions.mpr ⟨e, List.mem_of_mem_filter hef, hep⟩)
  cases hfind : ring.find? (fun e => decide (h key < e.1)) with
  | some e =>
    have hsp : specSuccessor (h key) ring = e.2 := by
      simp only [specSuccessor, hfind]
    have he2 : e.2 ≠ X := fun hcon => hnX (hsp.trans hcon)
    have hfind2 : (ring.filter (fun e => decide (e.2 ≠ X))).find?
        (fun e => decide (h key < e.1)) = some e :=
      find?_filter_of_pos hfind (decide_eq_true he2)
    have hne2 : ring.filter (fun e => decide (e.2 ≠ X)) ≠ [] :=
      List.ne_nil_of_mem (List.mem_of_find?_eq_some hfind2)
    rw [get_node_ok (s := ⟨ring.filter (fun e => e.2 ≠ X), occ2⟩) hsort2
      hne2 hnot2]
    have hsp2 : specSuccessor (h key)
        (ring.filter (fun e => decide (e.2 ≠ X))) = e.2 := by
      simp only [specSuccessor, hfind2]
    rw [hsp2, hsp]
  | none =>
    obtain ⟨e0, rest, rfl⟩ := List.exists_cons_of_ne_nil hne
    have hsp : specSuccessor (h key) (e0 :: rest) = e0.2 := by
      simp only [specSuccessor, hfind]
      rfl
    have he0 : e0.2 ≠ X := fun hcon => hnX (hsp.trans hcon)
    have hr2 : (e0 :: rest).filter (fun e => decide (e.2 ≠ X)) =
        e0 :: rest.filter (fun e => decide (e.2 ≠ X)) :=
      List.filter_cons_of_pos (decide_eq_true he0)
    have hne2 : (e0 :: rest).filter (fun e => decide (e.2 ≠ X)) ≠ [] := by
      rw [hr2]
      exact List.cons_ne_nil _ _
    have hfind2 : ((e0 :: rest).filter (fun e => decide (e.2 ≠ X))).find?
        (fun e => decide (h key < e.1)) = none :=
      find?_filter_of_none hfind
    rw [get_node_ok (s := ⟨(e0 :: rest).filter (fun e => e.2 ≠ X), occ2⟩)
      hsort2 hne2 hnot2]
    have hfind2b : (e0 :: rest.filter (fun e => decide (e.2 ≠ X))).find?
        (fun e => decide (h key < e.1)) = none := hr2 ▸ hfind2
    have hsp2 : specSuccessor (h key)
        ((e0 :: rest).filter (fun e => decide (e.2 ≠ X))) = e0.2 := by
      rw [hr2]
      simp only [specSuccessor, hfind2b]
      rfl
    rw [hsp2, hsp]

/-- Witness for C7: removing `B` from the two-node ring keeps the key
`"Z"` (previously routed to `A`) on node `A`. -/
theorem c7_bounded_remap_witness :
    ∃ s2, remove_node sAB "B" = .ok s2 ∧ get_node hashAB s2 "Z" = .ok "A" :=
  c7_bounded_remap hashAB "B" "Z" "A" sAB (by decide) rfl (by decide)

theorem countP_insort (p : (Int × String) → Bool) (x : Int × String) :
    ∀ l : List (Int × String),
      (insort x l).countP p = l.countP p + if p x then 1 else 0 := by
  intro l
  induction l with
  | nil => simp [insort, List.countP_cons]
  | cons e rest ih =>
    rw [insort]
    by_cases hc : x.1 < e.1 ∨ (x.1 = e.1 ∧ strLt x.2.data e.2.data)
    · rw [if_pos hc, List.countP_cons, List.countP_cons]
    · rw [if_neg hc, List.countP_cons, List.countP_cons, ih]
      ring

theorem countNode_insort (x : Int × String) (l : List (Int × String))
    (m : String) :
    countNode (insort x l) m = countNode l m + if x.2 = m then 1 else 0 := by
  rw [countNode, countNode, countP_insort]
  by_cases hxm : x.2 = m
  · simp [hxm]
  · simp [hxm]

theorem countNode_addReplica {h : String → Int} {fuel : Nat} {s : CH}
    {node : String} {i : Nat} {s' : CH}
    (hadd : addReplica h fuel s node i = some s') (m : String) :
    countNode s'.ring m = countNode s.ring m + if node = m then 1 else 0 := by
  rw [addReplica] at hadd
  cases hr : resolvePos h s.occupied i fuel (replicaKey node i) with
  | none => rw [hr] at hadd; exact absurd hadd (by simp)
  | some p =>
    rw [hr] at hadd
    obtain rfl : (⟨insort (p, node) s.ring, p :: s.occupied⟩ : CH) = s' :=
      Option.some.inj hadd
    exact countNode_insort (p, node) s.ring m

theorem countNode_addReplicas {h : String → Int} {fuel : Nat}
    {node : String} :
    ∀ k i (s s' : CH), addReplicas h fuel node i k s = some s' →
      ∀ m, countNode s'.ring m =
        countNode s.ring m + if node = m then k else 0 := by
  intro k
  induction k with
  | zero =>
    intro i s s' hadd m
    obtain rfl : s = s' := Option.some.inj hadd
    simp
  | succ kk ih =>
    intro i s s' hadd m
    rw [addReplicas] at hadd
    cases hr : addReplica h fuel s node i with
    | none => rw [hr] at hadd; exact absurd hadd (by simp)
    | some s1 =>
      rw [hr] at hadd
      have h1 := countNode_addReplica hr m
      have h2 := ih (i + 1) s1 s' hadd m
      rw [h2, h1]
      by_cases hnm : node = m
      · simp only [if_pos hnm]
        omega
      · simp only [if_neg hnm]

theorem countNode_generate_not_mem {h : String → Int} {fuel : Nat} :
    ∀ (nodes : List String) (ws : List Nat) (s s' : CH),
      generate_ring h fuel nodes ws s = some s' →
      ∀ m, m ∉ nodes → countNode s'.ring m = countNode s.ring m := by
  intro nodes
  induction nodes with
  | nil =>
    intro ws s s' hg m hm
    obtain rfl : s = s' := Option.some.inj hg
    rfl
  | cons n ns ih =>
    intro ws s s' hg m hm
    cases ws with
    | nil => exact absurd hg (by simp [generate_ring])
    | cons w ws2 =>
      rw [generate_ring] at hg
      cases hr : addReplicas h fuel n 0 w s with
      | none => rw [hr] at hg; exact absurd hg (by simp)
      | some s1 =>
        rw [hr] at hg
        have hmn : n ≠ m := fun hcon => hm (hcon ▸ List.mem_cons_self n ns)
        have h1 := countNode_addReplicas w 0 s s1 hr m
        rw [if_neg hmn, add_zero] at h1
        rw [ih ws2 s1 s' hg m (fun hc => hm (List.mem_cons_of_mem n hc))]
        exact h1

theorem countNode_generate_get {h : String → Int} {fuel : Nat} :
    ∀ (nodes : List String) (ws : List Nat) (s s' : CH),
      generate_ring h fuel nodes ws s = some s' → nodes.Nodup →
      ∀ i (hin : i < nodes.length) (hiw : i < ws.length),
        countNode s'.ring (nodes.get ⟨i, hin⟩) =
          countNode s.ring (nodes.get ⟨i, hin⟩) + ws.get ⟨i, hiw⟩ := by
  intro nodes
  induction nodes with
  | nil =>
    intro ws s s' hg hnd i hin
    exact absurd hin (by simp)
  | cons n ns ih =>
    intro ws s s' hg hnd i hin hiw
    cases ws with
    | nil => exact absurd hg (by simp [generate_ring])
    | cons w ws2 =>
      rw [generate_ring] at hg
      cases hr : addReplicas h fuel n 0 w s with
      | none => rw [hr] at hg; exact absurd hg (by simp)
      | some s1 =>
        rw [hr] at hg
        rw [List.nodup_cons] at hnd
        obtain ⟨hnin, hnd2⟩ := hnd
        cases i with
        | zero =>
          have h1 := countNode_addReplicas w 0 s s1 hr n
          rw [if_pos rfl] at h1
          have h2 := countNode_generate_not_mem ns ws2 s1 s' hg n hnin
          show countNode s'.ring n = countNode s.ring n + w
          rw [h2, h1]
        | succ j =>
          have hjn : j < ns.length := by simpa using hin
          have hjw : j < ws2.length := by simpa using hiw
          have hmn : n ≠ ns.get ⟨j, hjn⟩ :=
            fun hcon => hnin (hcon ▸ List.get_mem ns j hjn)
          have h1 := countNode_addReplicas w 0 s s1 hr (ns.get ⟨j, hjn⟩)
          rw [if_neg hmn, add_zero] at h1
          have h2 := ih ws2 s1 s' hg hnd2 j hjn hjw
          show countNode s'.ring (ns.get ⟨j, hjn⟩) =
            countNode s.ring (ns.get ⟨j, hjn⟩) + ws2.get ⟨j, hjw⟩
          rw [h2, h1]

/-- C8: after construction from a duplicate-free node list, the i-th node
occupies exactly `weights[i]` ring entries (hence a node with three times
another's weight occupies three times as many entries), and when the
weights argument is omitted every node occupies exactly 5 entries (the
default weight). -/
theorem c8_weight_proportionality :
    (∀ (h : String → Int) (fuel : Nat) (nodes : List String)
      (ws : List Nat) (s : CH), nodes.Nodup → ws.length = nodes.length →
      init h fuel nodes (some ws) = some s →
      ∀ i (hin : i < nodes.length) (hiw : i < ws.length),
        countNode s.ring (nodes.get ⟨i, hin⟩) = ws.get ⟨i, hiw⟩) ∧
    (∀ (h : String → Int) (fuel : Nat) (nodes : List String) (s : CH),
      nodes.Nodup → init h fuel nodes none = some s →
      ∀ n ∈ nodes, countNode s.ring n = 5) := by
  constructor
  · intro h fuel nodes ws s hnd hlen hinit i hin hiw
    have hempty : nodes.isEmpty = false := by
      cases nodes with
      | nil => exact absurd hin (by simp)
      | cons a t => rfl
    simp only [init.eq_def] at hinit
    rw [if_neg (by simp [hempty])] at hinit
    have hwne : ws.isEmpty = false := by
      cases ws with
      | nil =>
        cases nodes with
        | nil => exact absurd hin (by simp)
        | cons a t => exact absurd hlen (by simp)
      | cons b u => rfl
    rw [if_neg (by simp [hwne])] at hinit
    have hc := countNode_generate_get nodes ws ⟨[], []⟩ s hinit hnd i hin hiw
    simpa [countNode] using hc
  · intro h fuel nodes s hnd hinit n hn
    have hempty : nodes.isEmpty = false := by
      cases nodes with
      | nil => exact absurd hn (by simp)
      | cons a t => rfl
    simp only [init.eq_def] at hinit
    rw [if_neg (by simp [hempty])] at hinit
    obtain ⟨⟨i, hin⟩, hget⟩ := List.get_of_mem hn
    have hiw : i < (List.replicate nodes.length 5).length := by simpa using hin
    have hc := countNode_generate_get nodes (List.replicate nodes.length 5)
      ⟨[], []⟩ s hinit hnd i hin hiw
    rw [hget] at hc
    simpa [countNode, List.getElem_replicate] using hc

/-- Witness for C8: on the two-node construction with weights [1,1], node
`A` occupies exactly one ring entry. -/
theorem c8_weight_proportionality_witness :
    countNode sAB.ring "A" = 1 :=
  c8_weight_proportionality.1 hashAB 9 ["A", "B"] [1, 1] sAB (by decide)
    rfl rfl 0 (by decide) (by decide)

end Distcache
